import Mathlib

/-!
Verification of the hat codec of the HatsPlusPlus editor.

The definitions below are a shallow embedding of the Rust source:

* `src/metapixels.rs` — `MetapixelType`, `Metapixel`, `Metapixels`
* `src/animations.rs` / `src/animation.rs` — `AnimationType`, `Frame`, `Animation`
* `src/is_range.rs` — `is_range`
* `src/frames_from_range.rs` — `frames_from_range`
* `src/hat_utils.rs` — `get_animation`, `get_name_and_size`, `get_metapixels`
* `src/hats.rs` — `Wings`, `FlyingPet`, `WalkingPet`, `Hat` bundle operations,
  `insert_metapixels`

Machine integers are embedded as `Nat`/`Int`; a Rust `x as u8` cast is the
explicit truncation `toU8` below.  Code that can panic is embedded as an
`Option`-valued function, `none` being the panic.  Process-wide id counters
(`frame_id`, `hat_id`) are threaded explicitly where a claim needs them;
`FrameId` is drawn from such a counter, is never serialized and is never read
back by the codec, so `Frame` is embedded by its serialized content (`value`).
-/

namespace HatCodec

/-- Rust `x as u8` on an `i32`, i.e. truncation to the low byte.
`Int.emod` is non-negative for the positive modulus 256, so `toNat` is exact. -/
def toU8 (x : Int) : Nat := (x % 256).toNat

/-- Rust `b as u8` on a `bool`. -/
def boolByte (b : Bool) : Nat := if b then 1 else 0

/-- `MetapixelType` from `src/metapixels.rs`: the closed opcode enumeration.
Ordinals (`#[derive(FromPrimitive)]`, `as u8`) are declaration order, 0..23. -/
inductive MetapixelType where
  | StrappedOn
  | IsBigHat
  | FrameSize
  | AnimationType
  | AnimationDelay
  | AnimationLoop
  | AnimationFrame
  | AnimationFramePeriod
  | LinkFrameState
  | WingsGeneralOffset
  | WingsCrouchOffset
  | WingsRagdollOffset
  | WingsSlideOffset
  | GenerateWingsAnimations
  | PetChangesAngle
  | PetDistance
  | PetNoFlip
  | WingsAutoGlideFrame
  | WingsAutoIdleFrame
  | WingsAutoAnimationsSpeed
  | ChangeAnimationsEveryLevel
  | PetSpeed
  | WingsNetOffset
  | OnSpawnAnimation
  deriving DecidableEq, Repr

/-- The wire ordinal of an opcode (`MetapixelType as u8`). -/
def MetapixelType.toByte : MetapixelType → Nat
  | .StrappedOn => 0
  | .IsBigHat => 1
  | .FrameSize => 2
  | .AnimationType => 3
  | .AnimationDelay => 4
  | .AnimationLoop => 5
  | .AnimationFrame => 6
  | .AnimationFramePeriod => 7
  | .LinkFrameState => 8
  | .WingsGeneralOffset => 9
  | .WingsCrouchOffset => 10
  | .WingsRagdollOffset => 11
  | .WingsSlideOffset => 12
  | .GenerateWingsAnimations => 13
  | .PetChangesAngle => 14
  | .PetDistance => 15
  | .PetNoFlip => 16
  | .WingsAutoGlideFrame => 17
  | .WingsAutoIdleFrame => 18
  | .WingsAutoAnimationsSpeed => 19
  | .ChangeAnimationsEveryLevel => 20
  | .PetSpeed => 21
  | .WingsNetOffset => 22
  | .OnSpawnAnimation => 23

/-- `MetapixelType::from_u8` (via `#[derive(FromPrimitive)]`): bytes outside
0..23 yield `None`. -/
def MetapixelType.from_u8 : Nat → Option MetapixelType
  | 0 => some .StrappedOn
  | 1 => some .IsBigHat
  | 2 => some .FrameSize
  | 3 => some .AnimationType
  | 4 => some .AnimationDelay
  | 5 => some .AnimationLoop
  | 6 => some .AnimationFrame
  | 7 => some .AnimationFramePeriod
  | 8 => some .LinkFrameState
  | 9 => some .WingsGeneralOffset
  | 10 => some .WingsCrouchOffset
  | 11 => some .WingsRagdollOffset
  | 12 => some .WingsSlideOffset
  | 13 => some .GenerateWingsAnimations
  | 14 => some .PetChangesAngle
  | 15 => some .PetDistance
  | 16 => some .PetNoFlip
  | 17 => some .WingsAutoGlideFrame
  | 18 => some .WingsAutoIdleFrame
  | 19 => some .WingsAutoAnimationsSpeed
  | 20 => some .ChangeAnimationsEveryLevel
  | 21 => some .PetSpeed
  | 22 => some .WingsNetOffset
  | 23 => some .OnSpawnAnimation
  | _ => none

/-- `Metapixel` from `src/metapixels.rs`.  The source stores the raw byte
`r : u8` together with the invariant (enforced by `Metapixel::new`, which
rejects any `r` with `MetapixelType::from_u8(r) == None`) that `r` is a valid
opcode ordinal; `get_type` then decodes `r`.  The embedding carries the decoded
opcode `ty` directly, so `r = ty.toByte` and `get_type` is projection. -/
structure Metapixel where
  ty : MetapixelType
  g : Nat
  b : Nat
  deriving DecidableEq, Repr

/-- `Metapixel::new`: accepts the raw bytes only when the red channel is a
valid opcode ordinal. -/
def Metapixel.new (r g b : Nat) : Option Metapixel :=
  (MetapixelType.from_u8 r).map (fun t => { ty := t, g := g, b := b })

/-- `AnimationType` from `src/animations.rs` (`AnimType` in `src/hats.rs`):
the closed animation-kind enumeration, ordinals 0..11. -/
inductive AnimationType where
  | OnDefault
  | OnPressQuack
  | OnReleaseQuack
  | OnStatic
  | OnApproach
  | OnDuckDeath
  | Flying
  | StartIdle
  | Gliding
  | StartGliding
  | Idle
  | OnRessurect
  deriving DecidableEq, Repr

/-- The wire ordinal of an animation kind (`AnimationType as u8`). -/
def AnimationType.toByte : AnimationType → Nat
  | .OnDefault => 0
  | .OnPressQuack => 1
  | .OnReleaseQuack => 2
  | .OnStatic => 3
  | .OnApproach => 4
  | .OnDuckDeath => 5
  | .Flying => 6
  | .StartIdle => 7
  | .Gliding => 8
  | .StartGliding => 9
  | .Idle => 10
  | .OnRessurect => 11

/-- `AnimationType::from_u8`: bytes outside 0..11 yield `None`. -/
def AnimationType.from_u8 : Nat → Option AnimationType
  | 0 => some .OnDefault
  | 1 => some .OnPressQuack
  | 2 => some .OnReleaseQuack
  | 3 => some .OnStatic
  | 4 => some .OnApproach
  | 5 => some .OnDuckDeath
  | 6 => some .Flying
  | 7 => some .StartIdle
  | 8 => some .Gliding
  | 9 => some .StartGliding
  | 10 => some .Idle
  | 11 => some .OnRessurect
  | _ => none

/-- `Frame` from `src/animations.rs`: `{ value: i32, id: FrameId }`.  The
`id` is drawn from the thread-local `FRAME_ID_COUNTER`, is never serialized
and is never read by the codec, so the embedding keeps only `value`. -/
structure Frame where
  value : Int
  deriving DecidableEq, Repr

/-- `Animation` from `src/animations.rs`: kind, delay, loop flag, frames plus
the UI staging fields `new_frame` / `new_range_start` / `new_range_end`. -/
structure Animation where
  anim_type : AnimationType
  delay : Int
  looping : Bool
  frames : List Frame
  new_frame : Int
  new_range_start : Int
  new_range_end : Int
  deriving DecidableEq, Repr

/-- `Animation::new` from `src/animations.rs`. -/
def Animation.new (anim_type : AnimationType) (delay : Int) (looping : Bool)
    (frames : List Frame) : Animation :=
  { anim_type := anim_type, delay := delay, looping := looping,
    frames := frames, new_frame := 0, new_range_start := 1, new_range_end := 1 }

/-- Loop body of `is_range` (`src/is_range.rs`): every adjacent pair of the
slice must differ by exactly 1 in absolute value. -/
def is_range_loop : Int → List Int → Bool
  | _, [] => true
  | a, b :: rest => ((a - b).natAbs == 1) && is_range_loop b rest

/-- `is_range` from `src/is_range.rs`.  On the empty slice the source
computes `frames.len() - 1` on a `usize`, which underflows: a panic in a
debug build, and in release the wrapped bound makes `frames[0]` panic with an
out-of-bounds index.  The embedding returns `none` for that panic. -/
def is_range : List Int → Option Bool
  | [] => none
  | a :: rest => some (is_range_loop a rest)

/-- `frames_from_range` from `src/frames_from_range.rs`: the inclusive range
between the endpoints, reversed when `start > end`. -/
def frames_from_range (start finish : Int) : List Int :=
  let min_frame := min start finish
  let max_frame := max start finish
  let range := (List.range (max_frame - min_frame + 1).toNat).map
    (fun (i : Nat) => min_frame + (i : Int))
  if start > finish then range.reverse else range

/-- `Animation::gen_metapixels` from `src/animations.rs`: the three header
records, then one `AnimationFramePeriod` when the frame values form a ±1 run
of length > 1, else one `AnimationFrame` per frame.  `none` is the `is_range`
panic on an empty frame list (`is_range` is evaluated before the
short-circuited `len() > 1` test). -/
def Animation.gen_metapixels (a : Animation) : Option (List Metapixel) :=
  let header : List Metapixel :=
    [{ ty := .AnimationType, g := a.anim_type.toByte, b := 0 },
     { ty := .AnimationDelay, g := toU8 a.delay, b := 0 },
     { ty := .AnimationLoop, g := boolByte a.looping, b := 0 }]
  let vals : List Int := a.frames.map Frame.value
  match is_range vals with
  | none => none
  | some r =>
    if r ∧ 1 < vals.length then
      some (header ++
        [{ ty := .AnimationFramePeriod, g := toU8 vals.headI,
           b := toU8 (vals.getLastD 0) }])
    else
      some (header ++ vals.map (fun v => { ty := .AnimationFrame, g := toU8 v, b := 0 }))

/-- `get_animation` from `src/hat_utils.rs`: reads one `Animation` at `index`
when positions `index..index+3` are
`AnimationType, AnimationDelay, AnimationLoop, AnimationFrame | AnimationFramePeriod`.
The loop flag is the source's `looping.g.max(1) == 0`. -/
def get_animation (metapixels : List Metapixel) (index : Nat) : Option Animation := do
  let anim_type ← metapixels[index]?
  let delay ← metapixels[index + 1]?
  let looping ← metapixels[index + 2]?
  let frame_or_range ← metapixels[index + 3]?
  match anim_type.ty, delay.ty, looping.ty with
  | .AnimationType, .AnimationDelay, .AnimationLoop =>
    match frame_or_range.ty with
    | .AnimationFrame | .AnimationFramePeriod => do
      let t ← AnimationType.from_u8 anim_type.g
      let lp := Nat.max looping.g 1 == 0
      if frame_or_range.ty = .AnimationFramePeriod then
        let frames := frames_from_range (frame_or_range.g : Int) (frame_or_range.b : Int)
        some (Animation.new t (delay.g : Int) lp (frames.map Frame.mk))
      else
        let frames := ((metapixels.drop (index + 3)).takeWhile
          (fun m => m.ty == .AnimationFrame)).map (fun m => ((m.g : Int) : Int))
        some (Animation.new t (delay.g : Int) lp (frames.map Frame.mk))
    | _ => none
  | _, _, _ => none

/-! ## Bitmap pixels and the metapixel blit (`src/hats.rs`, `src/hat_utils.rs`)

The bitmap type comes from the external `pixas` crate, described by the spec
only through its interface ("per-pixel read/write"; "Metapixel encoding:
`red = opcode_ordinal, green = a, blue = b, alpha = 255`. Alpha 0 means
absent").  `Pixel.is_empty` and the out-of-bounds behaviour of `set_pixel`
are modelled from the spec; every theorem below evaluates the blit only at
in-bounds positions, so those modelling choices are not load-bearing. -/

/-- RGBA pixel of the external `pixas` crate. -/
structure Pixel where
  r : Nat
  g : Nat
  b : Nat
  a : Nat
  deriving DecidableEq, Repr

/-- Modelled from the spec: "Alpha 0 means absent". -/
def Pixel.is_empty (p : Pixel) : Bool := p.a == 0

/-- `Pixel::empty()`: the fully transparent pixel. -/
def Pixel.empty : Pixel := ⟨0, 0, 0, 0⟩

/-- `Pixel::from_rgb`: opaque pixel (spec: "alpha = 255"). -/
def Pixel.from_rgb (r g b : Nat) : Pixel := ⟨r, g, b, 255⟩

/-- The pixel grid of a bitmap, addressed by `(x, y)`. -/
abbrev PixMap := Nat × Nat → Pixel

/-- Modelled from the spec: `set_pixel` of the external bitmap library writes
one pixel; a write outside the `width × height` grid is ignored. -/
def setPix (w h : Nat) (m : PixMap) (x y : Nat) (p : Pixel) : PixMap :=
  if x < w ∧ y < h then Function.update m (x, y) p else m

/-- A `pixas` bitmap: dimensions plus the pixel grid. -/
structure Bitmap where
  width : Nat
  height : Nat
  pixels : PixMap

/-- Step of the write cursor in `insert_metapixels` (`src/hats.rs`): after a
record is written `y` advances by 1, plus 1 more when the *next* record in
the stream (the peeked one) is an `AnimationType` record. -/
def advanceY (y : Nat) (rest : List Metapixel) : Nat :=
  match rest with
  | next :: _ => if next.ty = .AnimationType then y + 1 + 1 else y + 1
  | [] => y + 1

/-- Inner `while y != bitmap.height` loop of `insert_metapixels`: writes
records down column `x` until the column is full or the records run out.
Returns the updated grid, the unconsumed records and the final `y`. -/
def insertColumnGo (w h x : Nat) :
    List Metapixel → PixMap → Nat → PixMap × List Metapixel × Nat
  | [], m, y => (m, [], y)
  | p :: rest, m, y =>
    if y = h then (m, p :: rest, y)
    else insertColumnGo w h x rest
      (setPix w h m x y (Pixel.from_rgb p.ty.toByte p.g p.b)) (advanceY y rest)

/-- Outer `while x != bitmap.width` loop of `insert_metapixels`.  The source
tests `x != width` and, `x` only ever increasing, never exits when `x` starts
above `width`; the embedding (total by `w - x`) returns the grid unchanged in
that case, which no theorem below relies on.  Note the source declares `y`
outside this loop, so the inner loop of a later column resumes at the final
`y` of the previous one. -/
def insertOuterGo (w h : Nat) :
    List Metapixel → PixMap → Nat → Nat → PixMap
  | ps, m, x, y =>
    if hx : x < w then
      let r := insertColumnGo w h x ps m y
      insertOuterGo w h r.2.1 r.1 (x + 1) r.2.2
    else m
  termination_by ps _ x _ => (w - x, ps)
  decreasing_by omega

/-- `insert_metapixels` from `src/hats.rs`: blits the record stream into the
metapixel area, starting at `(hat_area_size.x, 0)`. -/
def insert_metapixels (bm : Bitmap) (pixels : List Metapixel)
    (hat_area_size_x : Nat) : Bitmap :=
  { bm with pixels := insertOuterGo bm.width bm.height pixels bm.pixels hat_area_size_x 0 }

/-- Per-pixel body of `get_metapixels` (`src/hat_utils.rs`), applied to the
metapixel area presented as the sequence of pixels the source's column-major
`x`/`y` loops visit: empty pixels are skipped, and `Metapixel::new` silently
drops any pixel whose red channel is not a valid opcode ordinal. -/
def decodePixels (pixels : List Pixel) : List Metapixel :=
  pixels.filterMap (fun p => if p.is_empty then none else Metapixel.new p.r p.g p.b)

/-! ## Wings (`src/hats.rs`) -/

/-- `LinkFrameState` from `src/hats.rs`: `{Default=0, Saved=1, Inverted=2}`. -/
inductive LinkFrameState where
  | Default
  | Saved
  | Inverted
  deriving DecidableEq, Repr

/-- Wire ordinal of a `LinkFrameState` (`as u8`). -/
def LinkFrameState.toByte : LinkFrameState → Nat
  | .Default => 0
  | .Saved => 1
  | .Inverted => 2

/-- `Wings` from `src/hats.rs`, restricted to the fields `gen_metapixels`
reads.  Of `HatBase` only `frame_size` enters the encoder; `frames_amount`
stands for the value of the `frames_amount()` call, which the source derives
from the (external) texture dimensions. -/
structure Wings where
  general_offset : Int × Int
  crouch_offset : Int × Int
  ragdoll_offset : Int × Int
  slide_offset : Int × Int
  net_offset : Int × Int
  gen_animations : Bool
  auto_glide_frame : Int
  auto_idle_frame : Int
  auto_anim_speed : Int
  changes_animations : Bool
  size_state : Bool
  frame_size : Int × Int
  frames_amount : Nat
  deriving DecidableEq, Repr

/-- `DEFAULT_WINGS_IDLE_FRAME` from `src/hats.rs`. -/
def DEFAULT_WINGS_IDLE_FRAME : Int := 0

/-- `DEFAULT_AUTO_SPEED` from `src/hats.rs`. -/
def DEFAULT_AUTO_SPEED : Int := 4

/-- `Wings::gen_metapixels` from `src/hats.rs`.  Note the crouch-offset
condition: the source tests `self.crouch_offset.x != 128 ||
self.net_offset.y != 128`, mixing `crouch_offset.x` with `net_offset.y`. -/
def Wings.gen_metapixels (w : Wings) : List Metapixel :=
  (if w.general_offset.1 ≠ 128 ∨ w.general_offset.2 ≠ 128 then
    [⟨.WingsGeneralOffset, toU8 w.general_offset.1, toU8 w.general_offset.2⟩] else []) ++
  (if w.slide_offset.1 ≠ 128 ∨ w.slide_offset.2 ≠ 128 then
    [⟨.WingsSlideOffset, toU8 w.slide_offset.1, toU8 w.slide_offset.2⟩] else []) ++
  (if w.ragdoll_offset.1 ≠ 128 ∨ w.ragdoll_offset.2 ≠ 128 then
    [⟨.WingsRagdollOffset, toU8 w.ragdoll_offset.1, toU8 w.ragdoll_offset.2⟩] else []) ++
  (if w.crouch_offset.1 ≠ 128 ∨ w.net_offset.2 ≠ 128 then
    [⟨.WingsCrouchOffset, toU8 w.crouch_offset.1, toU8 w.crouch_offset.2⟩] else []) ++
  (if w.net_offset.1 ≠ 128 ∨ w.net_offset.2 ≠ 128 then
    [⟨.WingsNetOffset, toU8 w.net_offset.1, toU8 w.net_offset.2⟩] else []) ++
  (if w.frame_size.1 > 32 ∨ w.frame_size.2 > 32 then [⟨.IsBigHat, 0, 0⟩] else []) ++
  (if w.gen_animations then [⟨.GenerateWingsAnimations, 0, 0⟩] else []) ++
  (if w.changes_animations then [⟨.ChangeAnimationsEveryLevel, 0, 0⟩] else []) ++
  (if w.auto_anim_speed ≠ DEFAULT_AUTO_SPEED then
    [⟨.WingsAutoAnimationsSpeed, toU8 w.auto_anim_speed, 0⟩] else []) ++
  (if w.auto_glide_frame ≠ (w.frames_amount : Int) then
    [⟨.WingsAutoGlideFrame, toU8 w.auto_glide_frame - 1, 0⟩] else []) ++
  (if w.auto_idle_frame ≠ DEFAULT_WINGS_IDLE_FRAME then
    [⟨.WingsAutoIdleFrame, toU8 w.auto_idle_frame - 1, 0⟩] else []) ++
  [⟨.FrameSize, toU8 w.frame_size.1, toU8 w.frame_size.2⟩]

/-! ## Pets (`src/hats.rs`) -/

/-- `DEFAULT_PET_SPEED` from `src/hats.rs`. -/
def DEFAULT_PET_SPEED : Int := 10

/-- `DEFAULT_PET_DISTANCE` from `src/hats.rs`. -/
def DEFAULT_PET_DISTANCE : Int := 10

/-- `PetBase` from `src/hats.rs`.  Derivative defaults: `distance = 10`,
`flipped = true`. -/
structure PetBase where
  distance : Int
  flipped : Bool
  is_big : Bool
  link_frame_state : LinkFrameState
  animations : List Animation
  deriving DecidableEq, Repr

/-- The `PetBase::default()` value. -/
def PetBase.init : PetBase :=
  { distance := DEFAULT_PET_DISTANCE, flipped := true, is_big := false,
    link_frame_state := .Default, animations := [] }

/-- `FlyingPet` from `src/hats.rs`, restricted to the codec fields.
`frame_size` is `hat_base.frame_size`; the remaining `HatBase` fields
(bitmap, texture, name, id) never enter `gen_metapixels` or the
metapixel-processing part of the loader. -/
structure FlyingPet where
  pet_base : PetBase
  frame_size : Int × Int
  changes_angle : Bool
  speed : Int
  deriving DecidableEq, Repr

/-- `WalkingPet` from `src/hats.rs`, restricted to the codec fields. -/
structure WalkingPet where
  pet_base : PetBase
  frame_size : Int × Int
  deriving DecidableEq, Repr

/-- `FlyingPet::gen_metapixels` from `src/hats.rs`.  `none` propagates the
`Animation::gen_metapixels` panic on an animation with no frames. -/
def FlyingPet.gen_metapixels (p : FlyingPet) : Option (List Metapixel) :=
  let head : List Metapixel :=
    (if p.pet_base.distance ≠ DEFAULT_PET_DISTANCE then
      [⟨.PetDistance, toU8 p.pet_base.distance, 0⟩] else []) ++
    (if p.pet_base.flipped then [⟨.PetNoFlip, 0, 0⟩] else []) ++
    (if p.frame_size.1 > 32 ∨ p.frame_size.2 > 32 then [⟨.IsBigHat, 0, 0⟩] else []) ++
    [⟨.FrameSize, toU8 p.frame_size.1, toU8 p.frame_size.2⟩] ++
    (if p.pet_base.link_frame_state ≠ .Default then
      [⟨.LinkFrameState, p.pet_base.link_frame_state.toByte, 0⟩] else []) ++
    (if p.changes_angle then [⟨.PetChangesAngle, 0, 0⟩] else []) ++
    (if p.speed ≠ DEFAULT_PET_SPEED then [⟨.PetSpeed, toU8 p.speed, 0⟩] else [])
  match p.pet_base.animations.mapM Animation.gen_metapixels with
  | none => none
  | some ls => some (head ++ ls.flatten)

/-- `WalkingPet::gen_metapixels` from `src/hats.rs`: as the flying pet,
minus the angle and speed records. -/
def WalkingPet.gen_metapixels (p : WalkingPet) : Option (List Metapixel) :=
  let head : List Metapixel :=
    (if p.pet_base.distance ≠ DEFAULT_PET_DISTANCE then
      [⟨.PetDistance, toU8 p.pet_base.distance, 0⟩] else []) ++
    (if p.pet_base.flipped then [⟨.PetNoFlip, 0, 0⟩] else []) ++
    (if p.frame_size.1 > 32 ∨ p.frame_size.2 > 32 then [⟨.IsBigHat, 0, 0⟩] else []) ++
    [⟨.FrameSize, toU8 p.frame_size.1, toU8 p.frame_size.2⟩] ++
    (if p.pet_base.link_frame_state ≠ .Default then
      [⟨.LinkFrameState, p.pet_base.link_frame_state.toByte, 0⟩] else [])
  match p.pet_base.animations.mapM Animation.gen_metapixels with
  | none => none
  | some ls => some (head ++ ls.flatten)

/-- The state `FlyingPet::load_from_name_and_size` builds before its
metapixel loop: derivative defaults plus `frame_size = (MIN_FRAME_SIZE,
MIN_FRAME_SIZE)`. -/
def FlyingPet.init : FlyingPet :=
  { pet_base := PetBase.init, frame_size := (32, 32), changes_angle := false,
    speed := DEFAULT_PET_SPEED }

/-- The state `WalkingPet::load_from_name_and_size` builds before its
metapixel loop. -/
def WalkingPet.init : WalkingPet :=
  { pet_base := PetBase.init, frame_size := (32, 32) }

/-- One iteration of the metapixel loop of
`FlyingPet::load_from_name_and_size` (`src/hats.rs`), at stream position
`ip.1` looking at record `ip.2`. -/
def FlyingPet.applyMetapixel (mps : List Metapixel) (hat : FlyingPet)
    (ip : Nat × Metapixel) : FlyingPet :=
  match ip.2.ty with
  | .PetDistance => { hat with pet_base := { hat.pet_base with distance := (ip.2.g : Int) } }
  | .PetNoFlip => { hat with pet_base := { hat.pet_base with flipped := false } }
  | .FrameSize => { hat with frame_size := ((ip.2.g : Int), (ip.2.b : Int)) }
  | .AnimationType =>
    match get_animation mps ip.1 with
    | some anim =>
      { hat with pet_base :=
        { hat.pet_base with animations := hat.pet_base.animations ++ [anim] } }
    | none => hat
  | .IsBigHat => { hat with pet_base := { hat.pet_base with is_big := true } }
  | .PetChangesAngle => { hat with changes_angle := true }
  | .PetSpeed => { hat with speed := (ip.2.g : Int) }
  | _ => hat

/-- One iteration of the metapixel loop of
`WalkingPet::load_from_name_and_size` (`src/hats.rs`). -/
def WalkingPet.applyMetapixel (mps : List Metapixel) (hat : WalkingPet)
    (ip : Nat × Metapixel) : WalkingPet :=
  match ip.2.ty with
  | .PetDistance => { hat with pet_base := { hat.pet_base with distance := (ip.2.g : Int) } }
  | .PetNoFlip => { hat with pet_base := { hat.pet_base with flipped := false } }
  | .FrameSize => { hat with frame_size := ((ip.2.g : Int), (ip.2.b : Int)) }
  | .AnimationType =>
    match get_animation mps ip.1 with
    | some anim =>
      { hat with pet_base :=
        { hat.pet_base with animations := hat.pet_base.animations ++ [anim] } }
    | none => hat
  | .IsBigHat => { hat with pet_base := { hat.pet_base with is_big := true } }
  | _ => hat

/-- The metapixel-processing part of `FlyingPet::load_from_name_and_size`:
the enumerated fold of the loop body over the decoded stream. -/
def FlyingPet.load_from_metapixels (mps : List Metapixel) : FlyingPet :=
  mps.enum.foldl (FlyingPet.applyMetapixel mps) FlyingPet.init

/-- The metapixel-processing part of `WalkingPet::load_from_name_and_size`. -/
def WalkingPet.load_from_metapixels (mps : List Metapixel) : WalkingPet :=
  mps.enum.foldl (WalkingPet.applyMetapixel mps) WalkingPet.init

/-! ## Filename parsing (`src/hat_utils.rs`)

Rust string slices are embedded as their character sequences (`List Char`). -/

/-- `HatNameAndSize` from `src/hat_utils.rs`. -/
structure HatNameAndSize where
  name : List Char
  size : Option (Int × Int)
  deriving DecidableEq, Repr

/-- Rust `str::split('_')` on a character sequence: the (always non-empty)
list of separator-free segments; adjacent, leading and trailing separators
produce empty segments, and the empty input yields one empty segment. -/
def splitOnChar (sep : Char) : List Char → List (List Char)
  | [] => [[]]
  | c :: rest =>
    let r := splitOnChar sep rest
    if c = sep then [] :: r
    else (c :: r.headI) :: r.tail

/-- Rust `str::parse::<i32>()`: an optional sign followed by at least one
ASCII digit, rejected when the value overflows `i32`. -/
def parse_i32 (s : List Char) : Option Int :=
  let signed : Int × List Char :=
    match s with
    | '+' :: rest => (1, rest)
    | '-' :: rest => (-1, rest)
    | l => (1, l)
  if signed.2 = [] then none
  else if signed.2.all (fun c => c.isDigit) then
    let n : Nat := signed.2.foldl (fun acc c => acc * 10 + (c.toNat - 48)) 0
    let v : Int := signed.1 * (n : Int)
    if -2147483648 ≤ v ∧ v ≤ 2147483647 then some v else none
  else none

/-- `get_name_and_size` from `src/hat_utils.rs`.  After the
`let [name, size_x, size_y] = &parts[..]` destructuring succeeds, `name`
denotes the *first segment* (shadowing the argument), so the
parse-failure and non-positive-size returns use that segment, while the
destructuring-failure return still uses the whole stem. -/
def get_name_and_size (name : List Char) : HatNameAndSize :=
  if ¬ name.contains '_' then ⟨name, none⟩
  else
    match (splitOnChar '_' name).take 3 with
    | [nm, sx, sy] =>
      match parse_i32 sx, parse_i32 sy with
      | some size_x, some size_y =>
        if size_x ≤ 0 ∨ size_y ≤ 0 then ⟨nm, none⟩
        else ⟨nm, some (size_x, size_y)⟩
      | _, _ => ⟨nm, none⟩
    | _ => ⟨name, none⟩

/-! ## The hat bundle (`src/hats.rs`)

`Hat` holds trait objects `Box<dyn AbstractHat>`; the bundle operations
consult only `base().hat_type` and `id()` of an element, so an element is
embedded as that pair.  The process-wide `HAT_ID_COUNTER` behind `hat_id()`
is threaded explicitly: every element handed to an add or replace is
constructed by callers through constructors that draw `hat_id()`, so its id
is the current counter value and the counter advances. -/

/-- `HatType` from `src/hats.rs`. -/
inductive HatType where
  | Wereable
  | Wings
  | Extra
  | FlyingPet
  | WalkingPet
  | Room
  | Preview
  | Unspecified
  deriving DecidableEq, Repr

/-- `MAX_PETS` from `src/hats.rs`. -/
def MAX_PETS : Nat := 5

/-- A bundle element, projected to the fields the bundle operations read. -/
structure HatElement where
  hat_type : HatType
  id : Nat
  deriving DecidableEq, Repr

/-- `Hat` from `src/hats.rs`: the `HashMap<HatType, _>` of unique elements
(as a finite map, so at most one element per key by construction), the pet
list and the directory path. -/
structure Hat where
  unique_elemets : HatType → Option HatElement
  pets : List HatElement
  path : Option (List Char)

/-- `Hat::new` (also `Hat::default` with no path): empty collections. -/
def Hat.new (path : Option (List Char)) : Hat :=
  { unique_elemets := fun _ => none, pets := [], path := path }

/-- `Hat::remove_element`: retain, in both collections, the elements whose
id differs. -/
def Hat.remove_element (h : Hat) (id : Nat) : Hat :=
  { h with
    unique_elemets := fun t =>
      match h.unique_elemets t with
      | some e => if e.id = id then none else some e
      | none => none,
    pets := h.pets.filter (fun e => e.id != id) }

/-- `Hat::add_pet`: unconditionally pushes onto `pets` (the `can_add_pets`
bound is *not* consulted here). -/
def Hat.add_pet (h : Hat) (e : HatElement) : Hat :=
  { h with pets := h.pets ++ [e] }

/-- `Hat::add_unique_hat`: `assert!`s the kind is specified (the panic is
`none`), then inserts, overwriting any prior element of that key. -/
def Hat.add_unique_hat (h : Hat) (t : HatType) (e : HatElement) : Option Hat :=
  if t = .Unspecified then none
  else some { h with unique_elemets := Function.update h.unique_elemets t (some e) }

/-- `Hat::add_element`: pet kinds go to `add_pet`, everything else to
`add_unique_hat` keyed by the element's own kind. -/
def Hat.add_element (h : Hat) (e : HatElement) : Option Hat :=
  match e.hat_type with
  | .WalkingPet | .FlyingPet => some (h.add_pet e)
  | _ => h.add_unique_hat e.hat_type e

/-- `Hat::replace_element`: remove by id, then add. -/
def Hat.replace_element (h : Hat) (id : Nat) (e : HatElement) : Option Hat :=
  (h.remove_element id).add_element e

/-- One bundle edit: the element fed to an add or replace is described by
its kind; its id is drawn from `hat_id()` at construction time. -/
inductive HatOp where
  | add (t : HatType)
  | remove (id : Nat)
  | replace (id : Nat) (t : HatType)
  deriving DecidableEq, Repr

/-- Executes one edit against the bundle plus the `HAT_ID_COUNTER` state.
For add/replace the element is `⟨t, counter⟩` (the constructor drew
`hat_id()`) and the counter advances; the `Unspecified` `assert!` panic
aborts the process, so the bundle is returned unchanged in that branch. -/
def runOp : Hat × Nat → HatOp → Hat × Nat
  | (h, c), .add t =>
    match h.add_element ⟨t, c⟩ with
    | some h2 => (h2, c + 1)
    | none => (h, c + 1)
  | (h, c), .remove id => (h.remove_element id, c)
  | (h, c), .replace id t =>
    match h.replace_element id ⟨t, c⟩ with
    | some h2 => (h2, c + 1)
    | none => (h, c + 1)

/-- Executes a sequence of edits starting from the empty bundle and a fresh
counter. -/
def runOps (ops : List HatOp) : Hat × Nat :=
  ops.foldl runOp (Hat.new none, 0)

/-- The `HatType` keys in `HashMap` iteration (order irrelevant; listed in
declaration order). -/
def allHatTypes : List HatType :=
  [.Wereable, .Wings, .Extra, .FlyingPet, .WalkingPet, .Room, .Preview, .Unspecified]

/-- The unique elements of a bundle as a list (the values of the map). -/
def Hat.uniqueList (h : Hat) : List HatElement :=
  allHatTypes.filterMap h.unique_elemets

/-- The bundle invariant threaded through the edit operations: kinds match
their buckets, every id is below the counter, and ids are pairwise distinct
within and across the two collections. -/
def HatInv (h : Hat) (c : Nat) : Prop :=
  (∀ t e, h.unique_elemets t = some e → e.hat_type = t) ∧
  (∀ e ∈ h.pets, e.hat_type = .FlyingPet ∨ e.hat_type = .WalkingPet) ∧
  (∀ t e, h.unique_elemets t = some e → e.id < c) ∧
  (∀ e ∈ h.pets, e.id < c) ∧
  (∀ t1 e1 t2 e2, h.unique_elemets t1 = some e1 →
      h.unique_elemets t2 = some e2 → t1 ≠ t2 → e1.id ≠ e2.id) ∧
  ((h.pets.map HatElement.id).Nodup) ∧
  (∀ t e, h.unique_elemets t = some e → ∀ p ∈ h.pets, e.id ≠ p.id)

/-! ## Derived notions used in theorem statements -/

/-- The rows the `insert_metapixels` cursor assigns to the successive records
of a stream that starts at row `y`: each record advances by `advanceY`. -/
def rowsFrom (y : Nat) : List Metapixel → List Nat
  | [] => []
  | _ :: rest => y :: rowsFrom (advanceY y rest) rest

/-- The ascending run of `n` integers starting at `a`. -/
def ascFrom (a : Int) (n : Nat) : List Int :=
  (List.range n).map (fun (i : Nat) => a + (i : Int))

/-! ## Concrete inputs for witnesses and counterexamples -/

/-- A looping animation whose zig-zag frame list `[0, 1, 0]` passes
`is_range`. -/
def c1Anim : Animation := Animation.new .OnDefault 1 true [⟨0⟩, ⟨1⟩, ⟨0⟩]

/-- A non-looping animation with an ascending frame run. -/
def c1WitnessAnim : Animation := Animation.new .OnPressQuack 3 false [⟨2⟩, ⟨3⟩, ⟨4⟩]

/-- Six pet additions in a row. -/
def c2Ops : List HatOp := List.replicate 6 (.add .FlyingPet)

/-- A wearable followed by a pet. -/
def c2WitnessOps : List HatOp := [.add .Wereable, .add .FlyingPet]

/-- An all-transparent 3×2 bitmap whose art area is its first column. -/
def c3Bitmap : Bitmap := ⟨3, 2, fun _ => Pixel.empty⟩

/-- Four `FrameSize` records: two fit in the first metapixel column of
`c3Bitmap`, two belong to the second. -/
def c3Records : List Metapixel :=
  [⟨.FrameSize, 1, 0⟩, ⟨.FrameSize, 2, 0⟩, ⟨.FrameSize, 3, 0⟩, ⟨.FrameSize, 4, 0⟩]

/-- An all-transparent 2×8 bitmap whose art area is its first column. -/
def c4Bitmap : Bitmap := ⟨2, 8, fun _ => Pixel.empty⟩

/-- An animation header starting with an `AnimationType` record. -/
def c4Records : List Metapixel :=
  [⟨.AnimationType, 0, 0⟩, ⟨.AnimationDelay, 1, 0⟩, ⟨.AnimationLoop, 0, 0⟩,
   ⟨.AnimationFrame, 5, 0⟩]

/-- An all-transparent 2×8 bitmap for the amended blank-pixel claim. -/
def c4WitnessBitmap : Bitmap := ⟨2, 8, fun _ => Pixel.empty⟩

/-- A record followed by two `AnimationType` records. -/
def c4WitnessRecords : List Metapixel :=
  [⟨.FrameSize, 32, 32⟩, ⟨.AnimationType, 0, 0⟩, ⟨.AnimationType, 1, 0⟩]

/-- An animation with no frames. -/
def c5Anim : Animation := Animation.new .OnDefault 1 false []

/-- A non-looping animation with the contiguous frame run `[0, 1, 2, 3]`. -/
def c6Anim : Animation := Animation.new .OnDefault 4 false [⟨0⟩, ⟨1⟩, ⟨2⟩, ⟨3⟩]

/-- A non-empty pixel whose red channel 200 is no opcode ordinal. -/
def c7Pix : Pixel := ⟨200, 7, 7, 255⟩

/-- A one-pixel stream holding a `FrameSize` record. -/
def c7Seq : List Pixel := [⟨2, 32, 32, 255⟩]

/-- Wings whose crouch offset differs from `(128,128)` only in `y`, all other
offsets at the default. -/
def c8Wings : Wings :=
  { general_offset := (128, 128), crouch_offset := (128, 64),
    ragdoll_offset := (128, 128), slide_offset := (128, 128),
    net_offset := (128, 128), gen_animations := false, auto_glide_frame := 0,
    auto_idle_frame := 0, auto_anim_speed := 4, changes_animations := false,
    size_state := false, frame_size := (32, 32), frames_amount := 0 }

/-- Wings whose crouch offset is the default but whose net offset has
`y ≠ 128`. -/
def c8Wings2 : Wings :=
  { c8Wings with crouch_offset := (128, 128), net_offset := (128, 64) }

/-- The file stem `_3_4`. -/
def c9Stem : List Char := ['_', '3', '_', '4']

/-- The file stem `hat_32_32`. -/
def c9WitnessStem : List Char := ['h', 'a', 't', '_', '3', '2', '_', '3', '2']

/-- A flipped flying pet with no animations. -/
def c10Flying : FlyingPet := FlyingPet.init

/-- An unflipped walking pet with one animation. -/
def c10Walking : WalkingPet :=
  { pet_base :=
    { distance := DEFAULT_PET_DISTANCE, flipped := false, is_big := false,
      link_frame_state := .Default,
      animations := [Animation.new .OnDefault 3 false [⟨1⟩, ⟨4⟩]] },
    frame_size := (32, 32) }

end HatCodec

namespace HatCodec

/-! ## Helper lemmas -/

theorem metapixel_from_u8_toByte (t : MetapixelType) :
    MetapixelType.from_u8 t.toByte = some t := by
  cases t <;> rfl

theorem animtype_from_u8_toByte (t : AnimationType) :
    AnimationType.from_u8 t.toByte = some t := by
  cases t <;> rfl

/-! ## C5 — encoder totality on empty frame lists -/

/-- C5: the claim says `Animation::gen_metapixels` never panics, and on an
empty frame list returns exactly the three header records.  The code instead
panics: `is_range` is evaluated before the short-circuited `len() > 1` test
and computes `frames.len() - 1` on the empty slice (usize underflow, then an
out-of-bounds index in release).  Evaluating the embedding (where `none` is
that panic) at the failing input shows the divergence. -/
theorem c5_empty_frames_encode_panics :
    c5Anim.frames = [] ∧ is_range (c5Anim.frames.map Frame.value) = none ∧
    Animation.gen_metapixels c5Anim = none :=
  ⟨rfl, rfl, rfl⟩

/-! ## C6 — range compression -/

/-- C6: for every Animation whose frame values form a ±1-step run (in the
sense of `is_range`) of length at least 2, the encoder emits exactly the
three header records followed by one `AnimationFramePeriod` record carrying
the first and last frame values as its two bytes, and no `AnimationFrame`
record. -/
theorem c6_range_compression (a : Animation)
    (hr : is_range (a.frames.map Frame.value) = some true)
    (hl : 1 < (a.frames.map Frame.value).length) :
    a.gen_metapixels = some
      [⟨.AnimationType, a.anim_type.toByte, 0⟩,
       ⟨.AnimationDelay, toU8 a.delay, 0⟩,
       ⟨.AnimationLoop, boolByte a.looping, 0⟩,
       ⟨.AnimationFramePeriod, toU8 ((a.frames.map Frame.value).headI),
        toU8 ((a.frames.map Frame.value).getLastD 0)⟩] ∧
    ∀ l, a.gen_metapixels = some l → ∀ m ∈ l, m.ty ≠ .AnimationFrame := by
  have h1 : a.gen_metapixels = some
      [⟨.AnimationType, a.anim_type.toByte, 0⟩,
       ⟨.AnimationDelay, toU8 a.delay, 0⟩,
       ⟨.AnimationLoop, boolByte a.looping, 0⟩,
       ⟨.AnimationFramePeriod, toU8 ((a.frames.map Frame.value).headI),
        toU8 ((a.frames.map Frame.value).getLastD 0)⟩] := by
    simp only [Animation.gen_metapixels, hr]
    rw [if_pos ⟨trivial, hl⟩]
    rfl
  refine ⟨h1, fun l hl2 m hm => ?_⟩
  rw [h1] at hl2
  cases hl2
  fin_cases hm <;> simp

/-- C6 witness at the concrete run `[0, 1, 2, 3]`. -/
theorem c6_range_compression_witness :
    is_range (c6Anim.frames.map Frame.value) = some true ∧
    1 < (c6Anim.frames.map Frame.value).length ∧
    c6Anim.gen_metapixels = some
      [⟨.AnimationType, c6Anim.anim_type.toByte, 0⟩,
       ⟨.AnimationDelay, toU8 c6Anim.delay, 0⟩,
       ⟨.AnimationLoop, boolByte c6Anim.looping, 0⟩,
       ⟨.AnimationFramePeriod, toU8 ((c6Anim.frames.map Frame.value).headI),
        toU8 ((c6Anim.frames.map Frame.value).getLastD 0)⟩] :=
  ⟨by decide, by decide, (c6_range_compression c6Anim (by decide) (by decide)).1⟩

/-! ## C7 — unknown-opcode tolerance -/

/-- C7: inserting, anywhere in a metapixel-area pixel sequence, a non-empty
pixel whose red channel is no valid opcode ordinal leaves the decoded
metapixel list — and hence every animation extracted from it — unchanged.
Totality of the decoder is inherent: `decodePixels` and `get_animation` are
total functions on all pixel input. -/
theorem c7_unknown_opcode_tolerance (s1 s2 : List Pixel) (p : Pixel)
    (hne : p.is_empty = false) (hbad : MetapixelType.from_u8 p.r = none) :
    decodePixels (s1 ++ p :: s2) = decodePixels (s1 ++ s2) ∧
    ∀ i, get_animation (decodePixels (s1 ++ p :: s2)) i
        = get_animation (decodePixels (s1 ++ s2)) i := by
  have h : decodePixels (s1 ++ p :: s2) = decodePixels (s1 ++ s2) := by
    simp [decodePixels, List.filterMap_append, List.filterMap_cons, hne,
      Metapixel.new, hbad]
  exact ⟨h, fun i => by rw [h]⟩

/-- C7 witness: a red channel of 200 inserted after a `FrameSize` pixel. -/
theorem c7_unknown_opcode_witness :
    c7Pix.is_empty = false ∧ MetapixelType.from_u8 c7Pix.r = none ∧
    decodePixels (c7Seq ++ c7Pix :: []) = decodePixels (c7Seq ++ []) :=
  ⟨by decide, by decide,
   (c7_unknown_opcode_tolerance c7Seq [] c7Pix (by decide) (by decide)).1⟩

/-! ## C8 — wings offset emission -/

/-- C8: the claim says the `WingsCrouchOffset` record is emitted exactly when
`crouch_offset ≠ (128,128)`, independently of the other offsets.  The code's
condition is `crouch_offset.x != 128 || net_offset.y != 128` (a copy-paste
slip: its four siblings all test their own offset), so a crouch offset of
`(128, 64)` emits nothing, while a default crouch offset is emitted whenever
`net_offset.y ≠ 128`. -/
theorem c8_crouch_offset_wrong_condition :
    c8Wings.crouch_offset ≠ (128, 128) ∧
    c8Wings.gen_metapixels.filter (fun m => m.ty == .WingsCrouchOffset) = [] ∧
    c8Wings2.crouch_offset = (128, 128) ∧
    c8Wings2.gen_metapixels.filter (fun m => m.ty == .WingsCrouchOffset) =
      [⟨.WingsCrouchOffset, 128, 128⟩] := by
  refine ⟨by decide, by decide, by decide, by decide⟩

/-! ## C9 — filename parsing -/

/-- C9 counterexample: the claim says `get_name_and_size` returns a non-empty
name on every non-empty stem, but the stem `_3_4` (non-empty) returns the
empty first segment as its name, because the `let [name, size_x, size_y]`
destructuring shadows the argument. -/
theorem c9_name_counterexample :
    c9Stem ≠ [] ∧ get_name_and_size c9Stem = ⟨[], some (3, 4)⟩ := by
  exact ⟨by decide, by decide⟩

/-- C9 amended: for any non-empty stem that does not begin with the
separator `'_'`, `get_name_and_size` returns a non-empty name, and a size
that is either `None` or has both components positive.  (A stem beginning
with `'_'` whose second and third segments parse as positive integers gets
the empty first segment as its name — see the counterexample.) -/
theorem c9_name_and_size_amended (stem : List Char) (h1 : stem ≠ [])
    (h2 : stem.head? ≠ some '_') :
    (get_name_and_size stem).name ≠ [] ∧
    ∀ q ∈ (get_name_and_size stem).size, 0 < q.1 ∧ 0 < q.2 := by
  obtain ⟨c, rest, rfl⟩ : ∃ c rest, stem = c :: rest := by
    cases stem with
    | nil => exact absurd rfl h1
    | cons c r => exact ⟨c, r, rfl⟩
  have hcne : c ≠ '_' := by
    intro e
    exact h2 (by simp [e])
  have hd : splitOnChar '_' (c :: rest)
      = (c :: (splitOnChar '_' rest).headI) :: (splitOnChar '_' rest).tail := by
    simp [splitOnChar, hcne]
  unfold get_name_and_size
  split
  · exact ⟨by simp, by simp⟩
  · rw [hd, List.take_succ_cons]
    split
    · next nm sx sy heq =>
      obtain ⟨rfl, -⟩ : nm = c :: (splitOnChar '_' rest).headI ∧ True := by
        have := (List.cons.injEq _ _ _ _).mp heq.symm
        exact ⟨this.1, trivial⟩
      split
      · split
        · exact ⟨by simp, by simp⟩
        · next hpos =>
          refine ⟨by simp, ?_⟩
          intro q hq
          simp only [Option.mem_def, Option.some.injEq] at hq
          subst hq
          push_neg at hpos
          exact ⟨by omega, by omega⟩
      · exact ⟨by simp, by simp⟩
    · exact ⟨by simp, by simp⟩

/-- C9 witness at the stem `hat_32_32`. -/
theorem c9_name_and_size_witness :
    c9WitnessStem ≠ [] ∧ c9WitnessStem.head? ≠ some '_' ∧
    (get_name_and_size c9WitnessStem).name ≠ [] :=
  ⟨by decide, by decide,
   (c9_name_and_size_amended c9WitnessStem (by decide) (by decide)).1⟩

/-! ## Blit lemmas shared by C3 and C4 -/

theorem advanceY_lt (y : Nat) (rest : List Metapixel) : y < advanceY y rest := by
  cases rest with
  | nil => simp [advanceY]
  | cons a l =>
    simp only [advanceY]
    split <;> omega

theorem insertOuterGo_eq (w h : Nat) (ps : List Metapixel) (m : PixMap)
    (x y : Nat) :
    insertOuterGo w h ps m x y
      = if x < w then
          insertOuterGo w h (insertColumnGo w h x ps m y).2.1
            (insertColumnGo w h x ps m y).1 (x + 1) (insertColumnGo w h x ps m y).2.2
        else m := by
  rw [insertOuterGo.eq_def]
  by_cases hx : x < w <;> simp [hx]

theorem insertOuterGo_nil (w h x y : Nat) (m : PixMap) :
    insertOuterGo w h [] m x y = m := by
  suffices H : ∀ n x, w - x ≤ n → ∀ y m, insertOuterGo w h [] m x y = m from
    H (w - x) x le_rfl y m
  intro n
  induction n with
  | zero =>
    intro x hx y m
    rw [insertOuterGo_eq]
    have hnx : ¬ x < w := by omega
    simp [hnx]
  | succ k ih =>
    intro x hx y m
    rw [insertOuterGo_eq]
    by_cases hxw : x < w
    · rw [if_pos hxw]
      exact ih (x + 1) (by omega) y m
    · simp [hxw]

theorem insertOuterGo_stuck (w h x y : Nat) (m : PixMap) (ps : List Metapixel)
    (hy : y = h) : insertOuterGo w h ps m x y = m := by
  rw [hy]
  suffices H : ∀ n x ps m, w - x ≤ n → insertOuterGo w h ps m x h = m from
    H (w - x) x ps m le_rfl
  intro n
  induction n with
  | zero =>
    intro x2 ps2 m2 hxn
    rw [insertOuterGo_eq]
    have hnx : ¬ x2 < w := by omega
    simp [hnx]
  | succ k ih =>
    intro x2 ps2 m2 hxn
    rw [insertOuterGo_eq]
    by_cases hxw : x2 < w
    · have hcol : insertColumnGo w h x2 ps2 m2 h = (m2, ps2, h) := by
        cases ps2 with
        | nil => rfl
        | cons p rest => simp [insertColumnGo]
      rw [if_pos hxw, hcol]
      exact ih (x2 + 1) ps2 m2 (by omega)
    · simp [hxw]

theorem insertOuterGo_step (w h x y : Nat) (m : PixMap) (ps : List Metapixel)
    (hx : x < w) :
    insertOuterGo w h ps m x y
      = insertOuterGo w h (insertColumnGo w h x ps m y).2.1
          (insertColumnGo w h x ps m y).1 (x + 1) (insertColumnGo w h x ps m y).2.2 := by
  rw [insertOuterGo_eq, if_pos hx]

theorem insertColumnGo_lower (w h x : Nat) (ps : List Metapixel) :
    ∀ (m : PixMap) (y : Nat) (q : Nat × Nat), q.2 < y →
      (insertColumnGo w h x ps m y).1 q = m q := by
  induction ps with
  | nil => intro m y q hq; rfl
  | cons p rest ih =>
    intro m y q hq
    by_cases hyh : y = h
    · simp only [insertColumnGo, if_pos hyh]
    · simp only [insertColumnGo, if_neg hyh]
      rw [ih _ _ _ (lt_trans hq (advanceY_lt y rest))]
      unfold setPix
      split
      · exact Function.update_noteq (fun e => by cases e; omega) _ _
      · rfl

theorem insertColumnGo_writes (w h x : Nat) (hx : x < w) (ps : List Metapixel) :
    ∀ (m : PixMap) (y : Nat), (∀ r ∈ rowsFrom y ps, r < h) →
      (∀ pr ∈ ps.zip (rowsFrom y ps),
        (insertColumnGo w h x ps m y).1 (x, pr.2)
          = Pixel.from_rgb pr.1.ty.toByte pr.1.g pr.1.b) ∧
      (insertColumnGo w h x ps m y).2.1 = [] := by
  induction ps with
  | nil => intro m y hr; exact ⟨by simp, rfl⟩
  | cons p rest ih =>
    intro m y hr
    have hy : y < h := hr y (by simp [rowsFrom])
    have hyh : ¬ y = h := by omega
    simp only [insertColumnGo, if_neg hyh]
    obtain ⟨ihw, ihnil⟩ :=
      ih (setPix w h m x y (Pixel.from_rgb p.ty.toByte p.g p.b)) (advanceY y rest)
        (fun r hrr => hr r (by simp [rowsFrom, hrr]))
    refine ⟨?_, ihnil⟩
    intro pr hpr
    rcases List.mem_cons.mp (by simpa [rowsFrom] using hpr) with rfl | hmem
    · rw [insertColumnGo_lower w h x rest _ (advanceY y rest) (x, y)
        (advanceY_lt y rest)]
      unfold setPix
      rw [if_pos ⟨hx, hy⟩, Function.update_same]
    · exact ihw pr hmem

theorem rowsFrom_step (y : Nat) (ps : List Metapixel) :
    ∀ i, i + 1 < ps.length →
      (rowsFrom y ps).getD (i + 1) 0
        = (rowsFrom y ps).getD i 0 +
            (if (ps.getD (i + 1) ⟨.StrappedOn, 0, 0⟩).ty = .AnimationType
             then 2 else 1) := by
  induction ps generalizing y with
  | nil => intro i hi; simp at hi
  | cons p rest ih =>
    intro i hi
    cases i with
    | zero =>
      obtain ⟨q, rest2, rfl⟩ : ∃ q rest2, rest = q :: rest2 := by
        cases rest with
        | nil => simp at hi
        | cons q r => exact ⟨q, r, rfl⟩
      simp only [rowsFrom, List.getD_cons_succ, List.getD_cons_zero, advanceY]
      split <;> omega
    | succ j =>
      simp only [rowsFrom, List.getD_cons_succ]
      exact ih (advanceY y rest) j (by simpa using hi)

/-! ## C3 — blit coverage -/

/-- C3: the claim says `insert_metapixels` writes *every* record, filling the
metapixel area column by column — including records belonging to the second
and later columns.  But `y` is declared outside the column loop and never
reset, so once the first column ends at `y = height` the inner loop of every
later column exits immediately: records 3 and 4 of this 3×2 bitmap (art
width 1, so two metapixel columns of two rows each) are silently dropped and
column 2 stays transparent.  The surrounding `save` sizes the image as
`area.x + ceil(count/height)` columns precisely so that all records fit,
which is the claimed (and spec'd) intent. -/
theorem c3_blit_second_column_dropped :
    (insert_metapixels c3Bitmap c3Records 1).pixels (1, 0) = Pixel.from_rgb 2 1 0 ∧
    (insert_metapixels c3Bitmap c3Records 1).pixels (1, 1) = Pixel.from_rgb 2 2 0 ∧
    (insert_metapixels c3Bitmap c3Records 1).pixels (2, 0) = Pixel.empty ∧
    (insert_metapixels c3Bitmap c3Records 1).pixels (2, 1) = Pixel.empty := by
  have hpix : (insert_metapixels c3Bitmap c3Records 1).pixels
      = (insertColumnGo 3 2 1 c3Records c3Bitmap.pixels 0).1 := by
    show insertOuterGo 3 2 c3Records c3Bitmap.pixels 1 0 = _
    rw [insertOuterGo_step 3 2 1 0 c3Bitmap.pixels c3Records (by omega)]
    exact insertOuterGo_stuck 3 2 2 _ _ _ (by rfl)
  rw [hpix]
  refine ⟨rfl, rfl, rfl, rfl⟩

/-! ## C4 — blank pixel around `AnimationType` records -/

/-- C4 counterexample: the claim says that after each `AnimationType` record
the next position is left empty and the following record lands two rows
below.  The code instead skips a row *before* each upcoming `AnimationType`
(it peeks at the next record): writing
`[AnimationType, AnimationDelay, AnimationLoop, AnimationFrame]` puts the
`AnimationDelay` record at row 1 — the position immediately after the
`AnimationType` record, which the claim requires to stay empty — and the
`AnimationLoop` record at row 2, where the claim expects `AnimationDelay`. -/
theorem c4_blank_counterexample :
    (insert_metapixels c4Bitmap c4Records 1).pixels (1, 1) = Pixel.from_rgb 4 1 0 ∧
    (insert_metapixels c4Bitmap c4Records 1).pixels (1, 1) ≠ Pixel.empty ∧
    (insert_metapixels c4Bitmap c4Records 1).pixels (1, 2) = Pixel.from_rgb 5 0 0 := by
  have hpix : (insert_metapixels c4Bitmap c4Records 1).pixels
      = (insertColumnGo 2 8 1 c4Records c4Bitmap.pixels 0).1 := by
    show insertOuterGo 2 8 c4Records c4Bitmap.pixels 1 0 = _
    rw [insertOuterGo_step 2 8 1 0 c4Bitmap.pixels c4Records (by omega)]
    exact insertOuterGo_nil 2 8 2 _ _
  rw [hpix]
  refine ⟨rfl, by decide, rfl⟩

/-- C4 amended: when the record list fits in the first metapixel column
(every assigned row is below the height), each record `i` is written at
`(area.x, row i)` where `row 0 = 0` and `row (i+1) = row i + 2` exactly when
record `i+1` is an `AnimationType` record, else `row i + 1` — i.e. the blank
pixel is skipped *before* each `AnimationType` record that has a
predecessor, not after each `AnimationType` record. -/
theorem c4_blank_before_animation_type (bm : Bitmap) (ps : List Metapixel)
    (ax : Nat) (hax : ax < bm.width)
    (hrows : ∀ r ∈ rowsFrom 0 ps, r < bm.height) :
    (∀ pr ∈ ps.zip (rowsFrom 0 ps),
      (insert_metapixels bm ps ax).pixels (ax, pr.2)
        = Pixel.from_rgb pr.1.ty.toByte pr.1.g pr.1.b) ∧
    (∀ i, i + 1 < ps.length →
      (rowsFrom 0 ps).getD (i + 1) 0
        = (rowsFrom 0 ps).getD i 0 +
            (if (ps.getD (i + 1) ⟨.StrappedOn, 0, 0⟩).ty = .AnimationType
             then 2 else 1)) := by
  have hw := insertColumnGo_writes bm.width bm.height ax hax ps bm.pixels 0 hrows
  have hpix : (insert_metapixels bm ps ax).pixels
      = (insertColumnGo bm.width bm.height ax ps bm.pixels 0).1 := by
    show insertOuterGo bm.width bm.height ps bm.pixels ax 0 = _
    rw [insertOuterGo_step bm.width bm.height ax 0 bm.pixels ps hax, hw.2]
    exact insertOuterGo_nil _ _ _ _ _
  refine ⟨?_, fun i hi => rowsFrom_step 0 ps i hi⟩
  intro pr hpr
  rw [hpix]
  exact hw.1 pr hpr

/-- C4 witness: `[FrameSize, AnimationType, AnimationType]` in a 2×8 bitmap:
the first `AnimationType` record lands at row 2 (blank at row 1), and the
row recurrence steps by 2 into it. -/
theorem c4_blank_witness :
    (insert_metapixels c4WitnessBitmap c4WitnessRecords 1).pixels (1, 2)
      = Pixel.from_rgb 3 0 0 ∧
    (rowsFrom 0 c4WitnessRecords).getD 1 0
      = (rowsFrom 0 c4WitnessRecords).getD 0 0 +
          (if (c4WitnessRecords.getD 1 ⟨.StrappedOn, 0, 0⟩).ty = .AnimationType
           then 2 else 1) :=
  ⟨(c4_blank_before_animation_type c4WitnessBitmap c4WitnessRecords 1
      (by decide) (by decide)).1 (⟨.AnimationType, 0, 0⟩, 2) (by decide),
   (c4_blank_before_animation_type c4WitnessBitmap c4WitnessRecords 1
      (by decide) (by decide)).2 0 (by decide)⟩

/-! ## C1 — run lemmas -/

theorem ascFrom_succ (a : Int) (n : Nat) :
    ascFrom a (n + 1) = a :: ascFrom (a + 1) n := by
  unfold ascFrom
  rw [List.range_succ_eq_map]
  simp only [List.map_cons, Nat.cast_zero, add_zero, List.map_map]
  congr 1
  apply List.map_congr_left
  intro i hi
  simp only [Function.comp_apply]
  push_cast
  ring

theorem chain_up_eq_ascFrom : ∀ l : List Int,
    List.Chain' (fun x y => y = x + 1) l → l = ascFrom l.headI l.length := by
  intro l
  induction l with
  | nil => intro _; rfl
  | cons a rest ih =>
    intro hch
    cases rest with
    | nil =>
      show [a] = ascFrom a 1
      rw [ascFrom_succ]
      rfl
    | cons b t =>
      have hab : b = a + 1 := (List.chain'_cons.mp hch).1
      have ih2 := ih (List.chain'_cons.mp hch).2
      have ih3 : b :: t = ascFrom b (t.length + 1) := by simpa using ih2
      show a :: b :: t = ascFrom a (t.length + 1 + 1)
      rw [ascFrom_succ a (t.length + 1), ← hab, ← ih3]

theorem ascFrom_getLastD (a : Int) (n : Nat) (d : Int) :
    (ascFrom a (n + 1)).getLastD d = a + n := by
  induction n generalizing a d with
  | zero => rfl
  | succ k ih =>
    rw [ascFrom_succ, List.getLastD_cons, ih (a + 1) a]
    push_cast
    ring

theorem getLastD_mem : ∀ (d v : Int) (vs : List Int),
    (v :: vs).getLastD d ∈ v :: vs := by
  intro d v vs
  induction vs generalizing d v with
  | nil => simp
  | cons w ws ih =>
    rw [List.getLastD_cons]
    exact List.mem_cons_of_mem v (ih v w)

theorem frames_from_range_asc (a : Int) (n : Nat) :
    frames_from_range a (a + n) = ascFrom a (n + 1) := by
  have hmin : min a (a + (n : Int)) = a := min_eq_left (by omega)
  have hmax : max a (a + (n : Int)) = a + n := max_eq_right (by omega)
  simp only [frames_from_range, hmin, hmax]
  rw [if_neg (by omega)]
  have hcount : (a + (n : Int) - a + 1).toNat = n + 1 := by omega
  rw [hcount]
  rfl

theorem frames_from_range_desc (b : Int) (k : Nat) :
    frames_from_range (b + ((k + 1 : Nat) : Int)) b = (ascFrom b (k + 2)).reverse := by
  have hmin : min (b + ((k + 1 : Nat) : Int)) b = b := min_eq_right (by omega)
  have hmax : max (b + ((k + 1 : Nat) : Int)) b = b + ((k + 1 : Nat) : Int) :=
    max_eq_left (by omega)
  simp only [frames_from_range, hmin, hmax]
  rw [if_pos (by omega)]
  have hcount : (b + ((k + 1 : Nat) : Int) - b + 1).toNat = k + 2 := by omega
  rw [hcount]
  rfl

theorem headI_eq_head_getD (l : List Int) : l.headI = l.head?.getD 0 := by
  cases l <;> rfl

theorem reverse_headI (l : List Int) : l.reverse.headI = l.getLastD 0 := by
  rw [headI_eq_head_getD, List.head?_reverse, ← List.getLastD_eq_getLast?]

theorem reverse_getLastD (l : List Int) : l.reverse.getLastD 0 = l.headI := by
  have h := reverse_headI l.reverse
  rw [List.reverse_reverse] at h
  exact h.symm

theorem compressed_roundtrip (l : List Int) (hne : l ≠ [])
    (hc : List.Chain' (fun x y => y = x + 1) l ∨
          List.Chain' (fun x y => y = x - 1) l) :
    frames_from_range l.headI (l.getLastD 0) = l := by
  rcases hc with hup | hdown
  · obtain ⟨v, vs, rfl⟩ : ∃ v vs, l = v :: vs := by
      cases l with
      | nil => exact absurd rfl hne
      | cons v vs => exact ⟨v, vs, rfl⟩
    have h1 : v :: vs = ascFrom v (vs.length + 1) := by
      simpa using chain_up_eq_ascFrom _ hup
    have hlast : (v :: vs).getLastD 0 = v + vs.length := by
      rw [h1, ascFrom_getLastD]
    show frames_from_range v ((v :: vs).getLastD 0) = v :: vs
    rw [hlast, frames_from_range_asc, ← h1]
  · have hup2 : List.Chain' (fun x y => y = x + 1) l.reverse := by
      rw [List.chain'_reverse]
      exact hdown.imp (fun hxy => by simp only [flip]; omega)
    obtain ⟨b, t, hbt⟩ : ∃ b t, l.reverse = b :: t := by
      cases hr : l.reverse with
      | nil => exact absurd (by simpa using hr) hne
      | cons b t => exact ⟨b, t, rfl⟩
    have h1 : l.reverse = ascFrom b (t.length + 1) := by
      have := chain_up_eq_ascFrom _ hup2
      rw [hbt] at this ⊢
      simpa using this
    have hhead : l.headI = b + t.length := by
      rw [← reverse_getLastD, h1, ascFrom_getLastD]
    have hlast : l.getLastD 0 = b := by
      rw [← reverse_headI, hbt]
      rfl
    rw [hhead, hlast]
    cases t with
    | nil =>
      have hasc : ascFrom b 1 = [b] := by
        rw [ascFrom_succ]
        rfl
      have hl : l = [b] := by
        have h2 := congrArg List.reverse h1
        rw [List.reverse_reverse] at h2
        simpa [hasc] using h2
      simp only [List.length_nil, Nat.cast_zero, add_zero]
      rw [hl]
      have h3 := frames_from_range_asc b 0
      simp only [Nat.cast_zero, add_zero] at h3
      rw [h3, hasc]
    | cons w ws =>
      simp only [List.length_cons]
      rw [frames_from_range_desc b ws.length]
      have h2 := congrArg List.reverse h1
      rw [List.reverse_reverse] at h2
      simp only [List.length_cons] at h2
      exact h2.symm

/-! ## C1 — decode lemmas and the round-trip -/

theorem toU8_id (v : Int) (h0 : 0 ≤ v) (h255 : v ≤ 255) :
    ((toU8 v : Nat) : Int) = v := by
  unfold toU8
  rw [Int.toNat_of_nonneg (Int.emod_nonneg v (by norm_num))]
  exact Int.emod_eq_of_lt h0 (by omega)

theorem max_one_beq_zero (g : Nat) : (Nat.max g 1 == 0) = false := by
  have h1 : 1 ≤ Nat.max g 1 := Nat.le_max_right g 1
  exact beq_eq_false_iff_ne.mpr (by omega)

theorem map_value_mk (l : List Int) : l.map (Frame.value ∘ Frame.mk) = l := by
  have h : l.map (Frame.value ∘ Frame.mk) = l.map id :=
    List.map_congr_left (fun x hx => rfl)
  simpa using h

theorem map_takeWhile_frames (gs : List Nat) :
    ((gs.map (fun x => (⟨.AnimationFrame, x, 0⟩ : Metapixel))).takeWhile
      (fun m => m.ty == .AnimationFrame))
      = gs.map (fun x => (⟨.AnimationFrame, x, 0⟩ : Metapixel)) := by
  induction gs with
  | nil => rfl
  | cons g rest ih => simp [List.takeWhile_cons, ih]

theorem get_animation_period (k : AnimationType) (d lp g b : Nat) :
    get_animation [⟨.AnimationType, k.toByte, 0⟩, ⟨.AnimationDelay, d, 0⟩,
      ⟨.AnimationLoop, lp, 0⟩, ⟨.AnimationFramePeriod, g, b⟩] 0
      = some (Animation.new k (d : Int) false
          ((frames_from_range (g : Int) (b : Int)).map Frame.mk)) := by
  simp [get_animation, animtype_from_u8_toByte, max_one_beq_zero]

theorem get_animation_frames (k : AnimationType) (d lp g : Nat) (gs : List Nat) :
    get_animation ([⟨.AnimationType, k.toByte, 0⟩, ⟨.AnimationDelay, d, 0⟩,
        ⟨.AnimationLoop, lp, 0⟩]
      ++ (g :: gs).map (fun x => (⟨.AnimationFrame, x, 0⟩ : Metapixel))) 0
      = some (Animation.new k (d : Int) false
          (((g :: gs).map (fun (x : Nat) => (x : Int))).map Frame.mk)) := by
  simp [get_animation, animtype_from_u8_toByte, max_one_beq_zero,
    map_takeWhile_frames, List.map_map, Function.comp_def]

/-- C1 counterexample: the claim quantifies over all Animations with
non-empty frames and delay in `[1,255]`, asserting the decode of the encode
preserves `looping` and the frame-value sequence.  `c1Anim` has
`looping = true` and frames `[0,1,0]` — a zig-zag that `is_range` accepts —
and decodes to `looping = false` (the decoder computes
`looping.g.max(1) == 0`, which is always false) with frames `[0]`
(`AnimationFramePeriod(0,0)` expands to a single frame). -/
theorem c1_roundtrip_counterexample :
    c1Anim.frames ≠ [] ∧ 1 ≤ c1Anim.delay ∧ c1Anim.delay ≤ 255 ∧
    c1Anim.looping = true ∧ c1Anim.frames.map Frame.value = [0, 1, 0] ∧
    (c1Anim.gen_metapixels.bind (fun s => get_animation s 0)).map
        (fun dec => (dec.anim_type, dec.delay, dec.looping,
          dec.frames.map Frame.value))
      = some (.OnDefault, 1, false, [0]) := by
  decide

/-- C1 amended: for all Animations with non-empty frames, delay in `[1,255]`,
frame values in `[0,255]`, `looping = false`, and — whenever the frame list is
range-compressible — frames forming a *monotone* ±1 run, decoding the encoded
metapixel stream at index 0 yields an Animation with the same kind, delay,
looping flag and frame-value sequence. -/
theorem c1_roundtrip_amended (a : Animation)
    (h1 : a.frames ≠ [])
    (h2 : 1 ≤ a.delay) (h3 : a.delay ≤ 255)
    (h4 : a.looping = false)
    (h5 : ∀ v ∈ a.frames.map Frame.value, 0 ≤ v ∧ v ≤ 255)
    (h6 : (is_range (a.frames.map Frame.value) = some true ∧
            1 < (a.frames.map Frame.value).length) →
          List.Chain' (fun x y => y = x + 1) (a.frames.map Frame.value) ∨
          List.Chain' (fun x y => y = x - 1) (a.frames.map Frame.value)) :
    (a.gen_metapixels.bind (fun s => get_animation s 0)).map
        (fun dec => (dec.anim_type, dec.delay, dec.looping,
          dec.frames.map Frame.value))
      = some (a.anim_type, a.delay, a.looping, a.frames.map Frame.value) := by
  obtain ⟨v, vs, hv⟩ : ∃ v vs, a.frames.map Frame.value = v :: vs := by
    cases hm : a.frames.map Frame.value with
    | nil => exact absurd (List.map_eq_nil_iff.mp hm) h1
    | cons v vs => exact ⟨v, vs, rfl⟩
  have h5' : ∀ w ∈ v :: vs, 0 ≤ w ∧ w ≤ 255 := hv ▸ h5
  have hdelay : ((toU8 a.delay : Nat) : Int) = a.delay := toU8_id _ (by omega) h3
  rw [hv]
  by_cases hcomp : is_range_loop v vs = true ∧ 1 < (v :: vs).length
  · have hgen : a.gen_metapixels = some
        [⟨.AnimationType, a.anim_type.toByte, 0⟩,
         ⟨.AnimationDelay, toU8 a.delay, 0⟩,
         ⟨.AnimationLoop, boolByte a.looping, 0⟩,
         ⟨.AnimationFramePeriod, toU8 ((v :: vs).headI),
          toU8 ((v :: vs).getLastD 0)⟩] := by
      simp only [Animation.gen_metapixels, hv, is_range]
      rw [if_pos hcomp]
      rfl
    rw [hgen]
    show (get_animation _ 0).map _ = _
    rw [get_animation_period]
    have hhead : ((toU8 ((v :: vs).headI) : Nat) : Int) = v := by
      have hm : v ∈ v :: vs := List.mem_cons_self v vs
      exact toU8_id v (h5' v hm).1 (h5' v hm).2
    have hlmem := getLastD_mem 0 v vs
    have hlast : ((toU8 ((v :: vs).getLastD 0) : Nat) : Int) = (v :: vs).getLastD 0 :=
      toU8_id _ (h5' _ hlmem).1 (h5' _ hlmem).2
    have hfr : frames_from_range ((toU8 ((v :: vs).headI) : Nat) : Int)
        ((toU8 ((v :: vs).getLastD 0) : Nat) : Int) = v :: vs := by
      rw [hhead, hlast]
      have hch := h6 ⟨by rw [hv, is_range, hcomp.1], by rw [hv]; exact hcomp.2⟩
      rw [hv] at hch
      exact compressed_roundtrip (v :: vs) (List.cons_ne_nil v vs) hch
    simp only [Option.map_some', Animation.new, hfr, List.map_map]
    rw [h4, hdelay]
    simp [map_value_mk]
  · have hgen : a.gen_metapixels = some
        ([⟨.AnimationType, a.anim_type.toByte, 0⟩,
          ⟨.AnimationDelay, toU8 a.delay, 0⟩,
          ⟨.AnimationLoop, boolByte a.looping, 0⟩]
         ++ (v :: vs).map (fun w => ⟨.AnimationFrame, toU8 w, 0⟩)) := by
      simp only [Animation.gen_metapixels, hv, is_range]
      rw [if_neg hcomp]
    rw [hgen]
    show (get_animation _ 0).map _ = _
    have hmm : (v :: vs).map (fun w => (⟨.AnimationFrame, toU8 w, 0⟩ : Metapixel))
        = (toU8 v :: vs.map toU8).map (fun x => (⟨.AnimationFrame, x, 0⟩ : Metapixel)) := by
      simp [List.map_map, Function.comp]
    rw [hmm, get_animation_frames]
    have hvals : ((toU8 v :: vs.map toU8).map (fun (x : Nat) => (x : Int))) = v :: vs := by
      have : (v :: vs).map (fun w => ((toU8 w : Nat) : Int)) = (v :: vs).map id :=
        List.map_congr_left (fun w hw => toU8_id w (h5' w hw).1 (h5' w hw).2)
      simpa [List.map_map, Function.comp] using this
    simp only [Option.map_some', Animation.new, hvals, List.map_map]
    rw [h4, hdelay]
    simp [map_value_mk]

/-- C1 witness at the ascending run `[2, 3, 4]` with delay 3. -/
theorem c1_roundtrip_witness :
    c1WitnessAnim.frames ≠ [] ∧ 1 ≤ c1WitnessAnim.delay ∧
    c1WitnessAnim.delay ≤ 255 ∧ c1WitnessAnim.looping = false ∧
    (c1WitnessAnim.gen_metapixels.bind (fun s => get_animation s 0)).map
        (fun dec => (dec.anim_type, dec.delay, dec.looping,
          dec.frames.map Frame.value))
      = some (c1WitnessAnim.anim_type, c1WitnessAnim.delay,
          c1WitnessAnim.looping, c1WitnessAnim.frames.map Frame.value) :=
  ⟨by decide, by decide, by decide, by decide,
   c1_roundtrip_amended c1WitnessAnim (by decide) (by decide) (by decide)
     (by decide) (by decide)
     (by
       intro hcl
       left
       have hl : List.map Frame.value c1WitnessAnim.frames = [2, 3, 4] := rfl
       rw [hl]
       refine List.chain'_cons.mpr ⟨by norm_num, ?_⟩
       refine List.chain'_cons.mpr ⟨by norm_num, ?_⟩
       exact List.chain'_singleton 4)⟩

/-! ## C2 — bundle invariants -/

theorem HatInv_new : HatInv (Hat.new none) 0 := by
  unfold HatInv Hat.new
  refine ⟨?_, ?_, ?_, ?_, ?_, ?_, ?_⟩ <;> simp

theorem HatInv_mono {h : Hat} {c c2 : Nat} (hc : c ≤ c2) (hi : HatInv h c) :
    HatInv h c2 := by
  obtain ⟨i1, i2, i3, i4, i5, i6, i7⟩ := hi
  exact ⟨i1, i2, fun t e hte => lt_of_lt_of_le (i3 t e hte) hc,
    fun e he => lt_of_lt_of_le (i4 e he) hc, i5, i6, i7⟩

theorem HatInv_remove {h : Hat} {c : Nat} (hi : HatInv h c) (id : Nat) :
    HatInv (h.remove_element id) c := by
  obtain ⟨i1, i2, i3, i4, i5, i6, i7⟩ := hi
  have hu : ∀ t e, (h.remove_element id).unique_elemets t = some e →
      h.unique_elemets t = some e := by
    intro t e
    simp only [Hat.remove_element]
    cases hru : h.unique_elemets t with
    | none => simp
    | some e2 =>
      by_cases he : e2.id = id
      · simp [he]
      · simp [he]
  have hp : ∀ e ∈ (h.remove_element id).pets, e ∈ h.pets := by
    intro e he
    exact List.mem_of_mem_filter he
  refine ⟨fun t e hte => i1 t e (hu t e hte), fun e he => i2 e (hp e he),
    fun t e hte => i3 t e (hu t e hte), fun e he => i4 e (hp e he),
    fun t1 e1 t2 e2 h1 h2 hne => i5 t1 e1 t2 e2 (hu _ _ h1) (hu _ _ h2) hne,
    ?_, fun t e hte p hp2 => i7 t e (hu t e hte) p (hp p hp2)⟩
  exact i6.sublist ((List.filter_sublist _).map _)

theorem HatInv_add_pet {h : Hat} {c : Nat} (hi : HatInv h c) (e : HatElement)
    (hk : e.hat_type = .FlyingPet ∨ e.hat_type = .WalkingPet) (hid : e.id = c) :
    HatInv (h.add_pet e) (c + 1) := by
  obtain ⟨i1, i2, i3, i4, i5, i6, i7⟩ := hi
  refine ⟨i1, ?_, fun t e2 hte => Nat.lt_succ_of_lt (i3 t e2 hte), ?_, i5, ?_, ?_⟩
  · intro x hx
    rcases List.mem_append.mp hx with hx | hx
    · exact i2 x hx
    · rw [List.mem_singleton] at hx
      subst hx
      exact hk
  · intro x hx
    rcases List.mem_append.mp hx with hx | hx
    · exact Nat.lt_succ_of_lt (i4 x hx)
    · rw [List.mem_singleton] at hx
      subst hx
      omega
  · show ((h.pets ++ [e]).map HatElement.id).Nodup
    rw [List.map_append]
    rw [List.nodup_append]
    refine ⟨i6, by simp, ?_⟩
    intro a ha hb
    rw [List.map_singleton, List.mem_singleton] at hb
    obtain ⟨p, hpmem, hpid⟩ := List.mem_map.mp ha
    have := i4 p hpmem
    omega
  · intro t e2 hte p hpm
    rcases List.mem_append.mp hpm with hpm | hpm
    · exact i7 t e2 hte p hpm
    · rw [List.mem_singleton] at hpm
      subst hpm
      have := i3 t e2 hte
      omega

theorem HatInv_add_unique {h : Hat} {c : Nat} (hi : HatInv h c) (t : HatType)
    (e : HatElement) (ht : e.hat_type = t) (hid : e.id = c) :
    HatInv { h with
      unique_elemets := Function.update h.unique_elemets t (some e) } (c + 1) := by
  obtain ⟨i1, i2, i3, i4, i5, i6, i7⟩ := hi
  have key : ∀ t2 e2, Function.update h.unique_elemets t (some e) t2 = some e2 →
      (t2 = t ∧ e2 = e) ∨ (t2 ≠ t ∧ h.unique_elemets t2 = some e2) := by
    intro t2 e2 h2
    by_cases heq : t2 = t
    · subst heq
      rw [Function.update_same] at h2
      exact Or.inl ⟨rfl, (Option.some.injEq _ _).mp h2.symm⟩
    · rw [Function.update_noteq heq] at h2
      exact Or.inr ⟨heq, h2⟩
  refine ⟨?_, i2, ?_, fun p hpm => Nat.lt_succ_of_lt (i4 p hpm), ?_, i6, ?_⟩
  · intro t2 e2 h2
    rcases key t2 e2 h2 with ⟨rfl, rfl⟩ | ⟨-, hold⟩
    · exact ht
    · exact i1 t2 e2 hold
  · intro t2 e2 h2
    rcases key t2 e2 h2 with ⟨rfl, rfl⟩ | ⟨-, hold⟩
    · omega
    · exact Nat.lt_succ_of_lt (i3 t2 e2 hold)
  · intro t1 e1 t2 e2 h1 h2 hne
    rcases key t1 e1 h1 with ⟨rfl, rfl⟩ | ⟨hne1, hold1⟩
    · rcases key t2 e2 h2 with ⟨rfl, rfl⟩ | ⟨-, hold2⟩
      · exact absurd rfl hne
      · have := i3 t2 e2 hold2
        omega
    · rcases key t2 e2 h2 with ⟨rfl, rfl⟩ | ⟨-, hold2⟩
      · have := i3 t1 e1 hold1
        omega
      · exact i5 t1 e1 t2 e2 hold1 hold2 hne
  · intro t2 e2 h2 p hpm
    rcases key t2 e2 h2 with ⟨rfl, rfl⟩ | ⟨-, hold⟩
    · have := i4 p hpm
      omega
    · exact i7 t2 e2 hold p hpm

theorem HatInv_add_element {h : Hat} {c : Nat} (hi : HatInv h c) (t : HatType) :
    ∀ h2, h.add_element ⟨t, c⟩ = some h2 → HatInv h2 (c + 1) := by
  intro h2 hadd
  cases t <;>
    simp only [Hat.add_element, Hat.add_unique_hat, Option.some.injEq,
      reduceCtorEq, if_neg, if_pos, reduceIte] at hadd
  case FlyingPet =>
    subst hadd
    exact HatInv_add_pet hi _ (Or.inl rfl) rfl
  case WalkingPet =>
    subst hadd
    exact HatInv_add_pet hi _ (Or.inr rfl) rfl
  all_goals
    first
    | exact absurd hadd (by simp)
    | · subst hadd
        exact HatInv_add_unique hi _ _ rfl rfl

theorem HatInv_runOp {s : Hat × Nat} (hi : HatInv s.1 s.2) (op : HatOp) :
    HatInv (runOp s op).1 (runOp s op).2 := by
  obtain ⟨h, c⟩ := s
  cases op with
  | add t =>
    show HatInv (runOp (h, c) (.add t)).1 (runOp (h, c) (.add t)).2
    rw [runOp]
    cases hm : h.add_element ⟨t, c⟩ with
    | none => exact HatInv_mono (Nat.le_succ c) hi
    | some h2 => exact HatInv_add_element hi t h2 hm
  | remove id => exact HatInv_remove hi id
  | replace id t =>
    show HatInv (runOp (h, c) (.replace id t)).1 (runOp (h, c) (.replace id t)).2
    rw [runOp]
    cases hm : h.replace_element id ⟨t, c⟩ with
    | none => exact HatInv_mono (Nat.le_succ c) hi
    | some h2 =>
      exact HatInv_add_element (HatInv_remove hi id) t h2 hm

theorem runOps_inv (ops : List HatOp) : HatInv (runOps ops).1 (runOps ops).2 := by
  suffices H : ∀ s : Hat × Nat, HatInv s.1 s.2 →
      HatInv (ops.foldl runOp s).1 (ops.foldl runOp s).2 from
    H (Hat.new none, 0) HatInv_new
  induction ops with
  | nil => exact fun s hs => hs
  | cons op rest ih =>
    intro s hs
    exact ih (runOp s op) (HatInv_runOp hs op)

theorem ids_nodup_of_inv {h : Hat} {c : Nat} (hi : HatInv h c) :
    ((h.uniqueList ++ h.pets).map HatElement.id).Nodup := by
  obtain ⟨i1, i2, i3, i4, i5, i6, i7⟩ := hi
  rw [List.map_append]
  unfold Hat.uniqueList
  have hts : allHatTypes.Nodup := by decide
  revert hts
  suffices H : ∀ ts : List HatType, ts.Nodup →
      (((ts.filterMap h.unique_elemets).map HatElement.id)
        ++ h.pets.map HatElement.id).Nodup from fun hts => H allHatTypes hts
  intro ts
  induction ts with
  | nil => intro _; simpa using i6
  | cons t ts ih =>
    intro hnd
    have hnotmem := (List.nodup_cons.mp hnd).1
    have hnd2 := (List.nodup_cons.mp hnd).2
    cases hft : h.unique_elemets t with
    | none => simpa [List.filterMap_cons, hft] using ih hnd2
    | some e =>
      simp only [List.filterMap_cons, hft, List.map_cons, List.cons_append]
      rw [List.nodup_cons]
      refine ⟨?_, ih hnd2⟩
      intro hmem
      rcases List.mem_append.mp hmem with hm1 | hm2
      · obtain ⟨e2, he2, hidq⟩ := List.mem_map.mp hm1
        obtain ⟨t2, ht2mem, ht2⟩ := List.mem_filterMap.mp he2
        exact i5 t e t2 e2 hft ht2 (fun he => hnotmem (he ▸ ht2mem)) hidq.symm
      · obtain ⟨p, hpm, hidq⟩ := List.mem_map.mp hm2
        exact i7 t e hft p hpm hidq.symm

theorem unique_per_kind_of_inv {h : Hat} {c : Nat} (hi : HatInv h c)
    (t : HatType) :
    (h.uniqueList.filter (fun e => e.hat_type == t)).length ≤ 1 := by
  have i1 := hi.1
  unfold Hat.uniqueList
  have key : ∀ ts : List HatType,
      ((ts.filterMap h.unique_elemets).filter (fun e => e.hat_type == t)).length
        ≤ (ts.filter (fun t2 => t2 == t)).length := by
    intro ts
    induction ts with
    | nil => simp
    | cons t2 ts ih =>
      cases hft : h.unique_elemets t2 with
      | none =>
        simp only [List.filterMap_cons, hft, List.filter_cons]
        split
        · exact Nat.le_succ_of_le ih
        · exact ih
      | some e =>
        have he : e.hat_type = t2 := i1 t2 e hft
        simp only [List.filterMap_cons, hft, List.filter_cons, he]
        by_cases ht2 : (t2 == t) = true
        · simp only [ht2, if_pos, List.length_cons]
          omega
        · simp only [ht2, if_neg, Bool.false_eq_true, not_false_eq_true]
          exact ih
  have hall : (allHatTypes.filter (fun t2 => t2 == t)).length = 1 := by
    cases t <;> decide
  exact le_trans (key allHatTypes) (le_of_eq hall)

/-- C2 counterexample: the claim says `add_element` appends a pet only when
the pets list has fewer than `MAX_PETS = 5` entries, keeping `|pets| ≤ 5`.
But `add_element` routes pet kinds to `add_pet`, which pushes
unconditionally (`can_add_pets` is never consulted): six successive pet
additions leave six pets. -/
theorem c2_bundle_counterexample :
    MAX_PETS = 5 ∧ (runOps c2Ops).1.pets.length = 6 :=
  ⟨rfl, rfl⟩

/-- C2 amended: after any finite sequence of
`add_element` / `remove_element` / `replace_element` edits (each added
element carrying a fresh id from the `hat_id()` counter), there is at most
one element per unique kind, every element's kind matches its collection
(pet kinds in `pets`, others keyed by their own kind), and all element ids
are unique across the bundle.  The pets bound is dropped: `add_element`
appends pet-kind elements unconditionally, so `|pets|` can exceed 5. -/
theorem c2_bundle_invariants_amended (ops : List HatOp) :
    (∀ t e, (runOps ops).1.unique_elemets t = some e → e.hat_type = t) ∧
    (∀ e ∈ (runOps ops).1.pets,
        e.hat_type = HatType.FlyingPet ∨ e.hat_type = HatType.WalkingPet) ∧
    ((((runOps ops).1.uniqueList ++ (runOps ops).1.pets).map HatElement.id).Nodup) ∧
    (∀ t, ((runOps ops).1.uniqueList.filter
        (fun e => e.hat_type == t)).length ≤ 1) := by
  have hi := runOps_inv ops
  exact ⟨hi.1, hi.2.1, ids_nodup_of_inv hi, fun t => unique_per_kind_of_inv hi t⟩

/-- C2 witness: after adding a wearable and a flying pet, the pet sits in
`pets` with a pet kind. -/
theorem c2_bundle_invariants_witness :
    HatElement.hat_type ⟨HatType.FlyingPet, 1⟩ = HatType.FlyingPet ∨
    HatElement.hat_type ⟨HatType.FlyingPet, 1⟩ = HatType.WalkingPet :=
  (c2_bundle_invariants_amended c2WitnessOps).2.1 ⟨HatType.FlyingPet, 1⟩
    (by decide)

/-! ## C10 — pet flip inversion -/

theorem Animation.gen_nonempty (a : Animation) (h : a.frames ≠ []) :
    ∃ l, a.gen_metapixels = some l ∧ ∀ m ∈ l, m.ty ≠ .PetNoFlip := by
  obtain ⟨f, fs, hf⟩ : ∃ f fs, a.frames = f :: fs := by
    cases hfr : a.frames with
    | nil => exact absurd hfr h
    | cons f fs => exact ⟨f, fs, rfl⟩
  simp only [Animation.gen_metapixels, hf, List.map_cons, is_range]
  split
  · refine ⟨_, rfl, ?_⟩
    intro m hm
    rcases List.mem_append.mp hm with h1 | h2
    · fin_cases h1 <;> simp
    · rw [List.mem_singleton] at h2
      subst h2
      simp
  · refine ⟨_, rfl, ?_⟩
    intro m hm
    rcases List.mem_append.mp hm with h1 | h2
    · fin_cases h1 <;> simp
    · rcases List.mem_cons.mp h2 with rfl | h3
      · simp
      · obtain ⟨v, -, rfl⟩ := List.mem_map.mp h3
        simp

theorem mapM_gen_nonempty (as : List Animation)
    (h : ∀ a ∈ as, a.frames ≠ []) :
    ∃ ls, as.mapM Animation.gen_metapixels = some ls ∧
      ∀ m ∈ ls.flatten, m.ty ≠ .PetNoFlip := by
  induction as with
  | nil => exact ⟨[], rfl, by simp⟩
  | cons a rest ih =>
    obtain ⟨l, hl, hlm⟩ := Animation.gen_nonempty a (h a (by simp))
    obtain ⟨ls, hls, hlsm⟩ := ih (fun x hx => h x (by simp [hx]))
    refine ⟨l :: ls, ?_, ?_⟩
    · rw [List.mapM_cons, hl, hls]
      rfl
    · simp only [List.flatten_cons, List.mem_append]
      rintro m (hm | hm)
      · exact hlm m hm
      · exact hlsm m hm

theorem flying_apply_flipped (mps : List Metapixel) (hat : FlyingPet)
    (ip : Nat × Metapixel) :
    (FlyingPet.applyMetapixel mps hat ip).pet_base.flipped
      = (hat.pet_base.flipped && !(ip.2.ty == MetapixelType.PetNoFlip)) := by
  cases hty : ip.2.ty
  case AnimationType =>
    cases hga : get_animation mps ip.1 <;>
      simp [FlyingPet.applyMetapixel, hty, hga]
  all_goals simp [FlyingPet.applyMetapixel, hty]

theorem walking_apply_flipped (mps : List Metapixel) (hat : WalkingPet)
    (ip : Nat × Metapixel) :
    (WalkingPet.applyMetapixel mps hat ip).pet_base.flipped
      = (hat.pet_base.flipped && !(ip.2.ty == MetapixelType.PetNoFlip)) := by
  cases hty : ip.2.ty
  case AnimationType =>
    cases hga : get_animation mps ip.1 <;>
      simp [WalkingPet.applyMetapixel, hty, hga]
  all_goals simp [WalkingPet.applyMetapixel, hty]

theorem flying_foldl_flipped (mps : List Metapixel)
    (l : List (Nat × Metapixel)) (h0 : FlyingPet) :
    (l.foldl (FlyingPet.applyMetapixel mps) h0).pet_base.flipped
      = (h0.pet_base.flipped &&
          !(l.any (fun ip => ip.2.ty == MetapixelType.PetNoFlip))) := by
  induction l generalizing h0 with
  | nil => simp
  | cons ip rest ih =>
    rw [List.foldl_cons, ih, flying_apply_flipped]
    cases hfl : h0.pet_base.flipped <;>
      cases hc : ip.2.ty == MetapixelType.PetNoFlip <;>
        simp [hfl, hc, List.any_cons]

theorem walking_foldl_flipped (mps : List Metapixel)
    (l : List (Nat × Metapixel)) (h0 : WalkingPet) :
    (l.foldl (WalkingPet.applyMetapixel mps) h0).pet_base.flipped
      = (h0.pet_base.flipped &&
          !(l.any (fun ip => ip.2.ty == MetapixelType.PetNoFlip))) := by
  induction l generalizing h0 with
  | nil => simp
  | cons ip rest ih =>
    rw [List.foldl_cons, ih, walking_apply_flipped]
    cases hfl : h0.pet_base.flipped <;>
      cases hc : ip.2.ty == MetapixelType.PetNoFlip <;>
        simp [hfl, hc, List.any_cons]

theorem enum_any_noflip (l : List Metapixel) :
    (l.enum.any fun ip => ip.2.ty == MetapixelType.PetNoFlip)
      = l.any fun m => m.ty == MetapixelType.PetNoFlip := by
  suffices h : ∀ n, ((List.enumFrom n l).any fun ip =>
      ip.2.ty == MetapixelType.PetNoFlip)
      = l.any fun m => m.ty == MetapixelType.PetNoFlip from h 0
  induction l with
  | nil => intro n; rfl
  | cons a rest ih =>
    intro n
    simp only [List.enumFrom, List.any_cons, ih]

theorem flying_gen_noflip (p : FlyingPet)
    (h : ∀ a ∈ p.pet_base.animations, a.frames ≠ []) :
    ∃ s, p.gen_metapixels = some s ∧
      s.any (fun m => m.ty == MetapixelType.PetNoFlip) = p.pet_base.flipped := by
  obtain ⟨ls, hls, hlsm⟩ := mapM_gen_nonempty _ h
  have hflat : ls.flatten.any (fun m => m.ty == MetapixelType.PetNoFlip) = false :=
    List.any_eq_false.mpr (fun m hm => by simpa using hlsm m hm)
  simp only [FlyingPet.gen_metapixels, hls]
  refine ⟨_, rfl, ?_⟩
  cases hfl : p.pet_base.flipped <;>
    simp [List.any_append, hflat, hfl,
      apply_ite (fun l : List Metapixel =>
        l.any (fun m => m.ty == MetapixelType.PetNoFlip))]

theorem walking_gen_noflip (p : WalkingPet)
    (h : ∀ a ∈ p.pet_base.animations, a.frames ≠ []) :
    ∃ s, p.gen_metapixels = some s ∧
      s.any (fun m => m.ty == MetapixelType.PetNoFlip) = p.pet_base.flipped := by
  obtain ⟨ls, hls, hlsm⟩ := mapM_gen_nonempty _ h
  have hflat : ls.flatten.any (fun m => m.ty == MetapixelType.PetNoFlip) = false :=
    List.any_eq_false.mpr (fun m hm => by simpa using hlsm m hm)
  simp only [WalkingPet.gen_metapixels, hls]
  refine ⟨_, rfl, ?_⟩
  cases hfl : p.pet_base.flipped <;>
    simp [List.any_append, hflat, hfl,
      apply_ite (fun l : List Metapixel =>
        l.any (fun m => m.ty == MetapixelType.PetNoFlip))]

/-- C10: one encode/decode cycle negates a pet's `flipped` field.  The
encoder emits `PetNoFlip` exactly when `flipped` is `true`; the decoder
starts from the derivative default `flipped = true` and sets `false` on
seeing `PetNoFlip`.  Hence the reloaded pet has `flipped = !flipped`, for
flying and walking pets alike (the animations are required to have frames so
that the encoder does not hit the `is_range` panic). -/
theorem c10_pet_flip_inversion (p : FlyingPet) (q : WalkingPet)
    (hp : ∀ a ∈ p.pet_base.animations, a.frames ≠ [])
    (hq : ∀ a ∈ q.pet_base.animations, a.frames ≠ []) :
    p.gen_metapixels.map
        (fun s => (FlyingPet.load_from_metapixels s).pet_base.flipped)
      = some (!p.pet_base.flipped) ∧
    q.gen_metapixels.map
        (fun s => (WalkingPet.load_from_metapixels s).pet_base.flipped)
      = some (!q.pet_base.flipped) := by
  constructor
  · obtain ⟨s, hs, hany⟩ := flying_gen_noflip p hp
    rw [hs, Option.map_some']
    rw [FlyingPet.load_from_metapixels, flying_foldl_flipped, enum_any_noflip, hany]
    simp [FlyingPet.init, PetBase.init]
  · obtain ⟨s, hs, hany⟩ := walking_gen_noflip q hq
    rw [hs, Option.map_some']
    rw [WalkingPet.load_from_metapixels, walking_foldl_flipped, enum_any_noflip, hany]
    simp [WalkingPet.init, PetBase.init]

/-- C10 witness: a flipped flying pet and an unflipped walking pet. -/
theorem c10_pet_flip_witness :
    c10Flying.gen_metapixels.map
        (fun s => (FlyingPet.load_from_metapixels s).pet_base.flipped)
      = some (!c10Flying.pet_base.flipped) ∧
    c10Walking.gen_metapixels.map
        (fun s => (WalkingPet.load_from_metapixels s).pet_base.flipped)
      = some (!c10Walking.pet_base.flipped) :=
  c10_pet_flip_inversion c10Flying c10Walking (by decide) (by decide)

end HatCodec

